import Mathlib

/-
Verification of the `PythonProjectParser` in `ast1.py`.

The Python program walks a directory tree, parses every eligible `.py` file
with the `ast` module, extracts a nested dictionary describing top-level
functions and classes (their variables and import dependencies), and dumps
the result as JSON.

This file gives a shallow embedding of that program:

* Python AST statement nodes are modelled by the inductive type `Stmt`,
  keeping exactly the constructors the traversal distinguishes
  (`ast.Import`, `ast.ImportFrom`, `ast.Assign`, `ast.AnnAssign`,
  `ast.AugAssign`, `ast.FunctionDef`, `ast.AsyncFunctionDef`,
  `ast.ClassDef`) and collapsing every other statement into `Stmt.other`.
  A node's `body` list models the statement children produced by
  `ast.iter_child_nodes`; expression children (decorators, argument lists,
  return annotations) are omitted because they are never `Import`,
  `ImportFrom`, `Assign`, `FunctionDef` or `ClassDef` instances and hence
  never affect the extraction.
* Expression values are modelled by the string `ast.unparse` renders them
  to; `.strip()` becomes `pyStrip`.
* Python dictionaries are modelled as association lists with key-assignment
  `alSet` (first-occurrence update, append when absent), matching the
  insertion-ordered, last-wins semantics of `dict.__setitem__`.
* A file's raw text is modelled by `FileText`: either a statement list the
  grammar accepts (`valid body`) or text `ast.parse` rejects (`invalid`),
  in which case `parse_file` fails like the uncaught `SyntaxError`.
* The directory tree is `DirTree`; `walkDirs` models `os.walk` (top-down,
  root first, subdirectories in listing order) and `moduleName` models
  `os.path.relpath(root, project_path).replace(os.path.sep, chr(46))`.
-/

namespace AstProject

/-- Model of one alias in an import clause: `alias.name` and `alias.asname`. -/
structure ImportAlias where
  name : String
  asname : Option String
  deriving Repr, DecidableEq

/-- Model of an assignment target: a bare name (`ast.Name`) or anything else
(attribute, tuple/list unpacking, subscript, starred). -/
inductive Target where
  | name (id : String)
  | other
  deriving Repr, DecidableEq

/-- Model of the Python statement nodes distinguished by `ast1.py`.
A definition node carries its `name`, `lineno` and the statement children of
its body. Relative from-imports (`from . import x`) have `module = none`,
matching `ast.ImportFrom.module is None`. -/
inductive Stmt where
  | importStmt (names : List ImportAlias)
  | importFrom (module : Option String) (names : List ImportAlias)
  | assign (targets : List Target) (value : String)
  | annAssign (target : Target) (value : Option String)
  | augAssign (target : Target) (value : String)
  | funcDef (name : String) (lineno : Nat) (body : List Stmt)
  | asyncFuncDef (name : String) (lineno : Nat) (body : List Stmt)
  | classDef (name : String) (lineno : Nat) (body : List Stmt)
  | other
  deriving Repr

/-- Association-list model of a Python `dict` (insertion ordered, unique
keys). `alSet d k v` is `d[k] = v`: it overwrites the value at the first
occurrence of `k` in place, or appends `(k, v)` when `k` is absent. -/
def alSet {α : Type} : List (String × α) → String → α → List (String × α)
  | [], k, v => [(k, v)]
  | p :: rest, k, v => if p.1 = k then (k, v) :: rest else p :: alSet rest k v

/-- Dictionary lookup, `d.get(k)`: the value at the first occurrence of `k`. -/
def lookupA {α : Type} (d : List (String × α)) (k : String) : Option α :=
  (d.find? (fun p => p.1 == k)).map Prod.snd

/-- Key list of a dictionary, in insertion order. -/
def keysOf {α : Type} (d : List (String × α)) : List String :=
  d.map Prod.fst

/-- Model of `str.strip()` with no argument: remove leading and trailing
whitespace from the character sequence. -/
def pyStrip (s : String) : String :=
  String.mk
    (((s.data.dropWhile Char.isWhitespace).reverse.dropWhile
        Char.isWhitespace).reverse)

/-- Model of `PythonProjectParser._is_python_file`:
`filename.endswith(".py") and not filename.startswith("__")`, as suffix and
prefix tests on the file name's character sequence. -/
def is_python_file (filename : String) : Bool :=
  (".py".data.isSuffixOf filename.data) &&
    !("__".data.isPrefixOf filename.data)

/-- Model of `PythonProjectParser._extract_dependencies`: scan the direct
children of a node; for each `ast.Import` extend with the alias names, for
each `ast.ImportFrom` extend with `f"{module}.{alias.name}"` where `module`
is the named module, or the empty string when none is named. No recursion into grandchildren. -/
def extract_dependencies (children : List Stmt) : List String :=
  children.foldl
    (fun deps child =>
      match child with
      | .importStmt names => deps ++ names.map (fun a => a.name)
      | .importFrom module names =>
          deps ++ names.map (fun a => (module.getD "") ++ "." ++ a.name)
      | _ => deps)
    []

/-- Model of the `FunctionInfo` dictionary built by `_parse_function`. -/
structure FunctionInfo where
  name : String
  «variables» : List (String × String)
  dependencies : List String
  line_number : Nat
  deriving Repr, DecidableEq

/-- Model of `PythonProjectParser._parse_function`: scan the direct children
of the function body; for each `ast.Assign` child, every `ast.Name` target
gets `variables[target.id] = ast.unparse(child.value).strip()`; dependencies
come from `_extract_dependencies` on the same node. -/
def parse_function (name : String) (lineno : Nat) (body : List Stmt) :
    FunctionInfo where
  name := name
  «variables» :=
    body.foldl
      (fun vars child =>
        match child with
        | .assign targets value =>
            targets.foldl
              (fun vars t =>
                match t with
                | .name id => alSet vars id (pyStrip value)
                | .other => vars)
              vars
        | _ => vars)
      []
  dependencies := extract_dependencies body
  line_number := lineno

/-- Model of the `ClassInfo` dictionary built by `_parse_class`. -/
structure ClassInfo where
  name : String
  methods : List (String × FunctionInfo)
  «variables» : List (String × String)
  dependencies : List String
  line_number : Nat
  deriving Repr, DecidableEq

/-- Model of `PythonProjectParser._parse_class`: scan the direct children of
the class body; an `ast.FunctionDef` child becomes a `methods` entry via
`_parse_function`, an `ast.Assign` child contributes its `ast.Name` targets
to the class `variables`; dependencies from `_extract_dependencies`. -/
def parse_class (name : String) (lineno : Nat) (body : List Stmt) :
    ClassInfo :=
  let acc :=
    body.foldl
      (fun acc child =>
        match child with
        | .funcDef n l b => (alSet acc.1 n (parse_function n l b), acc.2)
        | .assign targets value =>
            (acc.1,
             targets.foldl
               (fun cv t =>
                 match t with
                 | .name id => alSet cv id (pyStrip value)
                 | .other => cv)
               acc.2)
        | _ => acc)
      (([], []) : List (String × FunctionInfo) × List (String × String))
  { name := name
    methods := acc.1
    «variables» := acc.2
    dependencies := extract_dependencies body
    line_number := lineno }

/-- Model of the file-level dictionary built by `parse_file`. -/
structure FileStructure where
  functions : List (String × FunctionInfo)
  classes : List (String × ClassInfo)
  dependencies : List String
  deriving Repr, DecidableEq

/-- Body of `PythonProjectParser.parse_file` after a successful `ast.parse`:
file-level dependencies from the tree root, then each top-level
`ast.FunctionDef` is recorded in `functions` and each top-level
`ast.ClassDef` in `classes`, keyed by name (last-wins). -/
def mkFileStructure (body : List Stmt) : FileStructure :=
  body.foldl
    (fun fs node =>
      match node with
      | .funcDef n l b =>
          { fs with functions := alSet fs.functions n (parse_function n l b) }
      | .classDef n l b =>
          { fs with classes := alSet fs.classes n (parse_class n l b) }
      | _ => fs)
    { functions := []
      classes := []
      dependencies := extract_dependencies body }

/-- Raw text of one file, as seen by `ast.parse`: either text the grammar
accepts (modelled by the statement list of the module body) or text it
rejects with a `SyntaxError`. -/
inductive FileText where
  | valid (body : List Stmt)
  | invalid
  deriving Repr

/-- Model of `PythonProjectParser.parse_file`: `ast.parse` the file text;
on invalid syntax the uncaught `SyntaxError` propagates (the `.error`
branch), otherwise the file structure is built. -/
def parse_file : FileText → Except String FileStructure
  | .valid body => .ok (mkFileStructure body)
  | .invalid => .error "invalid syntax"

/-- Directory tree handed to `os.walk`: the files of a directory (name and
raw text, in listing order) and its subdirectories (name and subtree, in
listing order). -/
inductive DirTree where
  | node (files : List (String × FileText)) (subdirs : List (String × DirTree))

/-- Module name of a directory, from its path components relative to the
project root: `os.path.relpath(root, project_path).replace(os.path.sep, chr(46))`.
The root itself has relative path `"."`. -/
def moduleName : List String → String
  | [] => "."
  | c :: cs => cs.foldl (fun acc d => acc ++ "." ++ d) c

mutual

/-- Model of `os.walk(project_path)` (top-down): yield the directory itself
(as its module name paired with its files), then recurse into the
subdirectories in order. -/
def walkDirs (comps : List String) : DirTree → List (String × List (String × FileText))
  | .node files subdirs => (moduleName comps, files) :: walkSub comps subdirs

/-- Walk of a subdirectory list, in listing order. -/
def walkSub (comps : List String) : List (String × DirTree) → List (String × List (String × FileText))
  | [] => []
  | e :: rest => walkDirs (comps ++ [e.1]) e.2 ++ walkSub comps rest

end

/-- Flattening of the walk into the exact sequence of
(module name, file name, file text) triples the nested `for` loops of
`parse_project` visit. -/
def walkFiles (t : DirTree) : List (String × String × FileText) :=
  (walkDirs [] t).flatMap (fun p => p.2.map (fun q => (p.1, q.1, q.2)))

/-- Nested project dictionary: module name to file name to file structure. -/
abbrev ProjectStructure : Type :=
  List (String × List (String × FileStructure))

/-- Body of the `parse_project` file loop for one file:
initialize `project_structure[module_name]` to the empty dictionary when the
key is absent, then `project_structure[module_name][file] = ...`. -/
def insertFile (ps : ProjectStructure) (m f : String) (v : FileStructure) :
    ProjectStructure :=
  let ps1 := if (lookupA ps m).isSome then ps else alSet ps m []
  alSet ps1 m (alSet ((lookupA ps1 m).getD []) f v)

/-- Sequential processing of the walked files by `parse_project`: skip files
failing `_is_python_file`, parse each eligible file and insert the result;
an uncaught parse error aborts the loop, so no later entry is examined. -/
def processEntries : List (String × String × FileText) → ProjectStructure →
    Except String ProjectStructure
  | [], ps => .ok ps
  | (m, f, txt) :: rest, ps =>
    if is_python_file f then
      match parse_file txt with
      | .error e => .error e
      | .ok v => processEntries rest (insertFile ps m f v)
    else
      processEntries rest ps

/-- Model of `PythonProjectParser.parse_project`. The parameter `ps` is the
`self.project_structure` dictionary at call time: `[]` for a fresh parser
instance, or the structure left by an earlier call on the same instance. -/
def parse_project (t : DirTree) (ps : ProjectStructure) :
    Except String ProjectStructure :=
  processEntries (walkFiles t) ps

/-- Number of spaces of indentation. -/
def spaces (n : Nat) : String :=
  String.mk (List.replicate n ' ')

/-- JSON string escaping used by `json.dump` for the characters that can
occur here: backslash, double quote and common control characters. -/
def jsonEscape (s : String) : String :=
  s.foldl
    (fun acc c =>
      if c = '\\' then acc ++ "\\\\"
      else if c = '"' then acc ++ "\\\""
      else if c = '\n' then acc ++ "\\n"
      else if c = '\t' then acc ++ "\\t"
      else if c = '\r' then acc ++ "\\r"
      else acc.push c)
    ""

/-- JSON rendering of a string. -/
def renderStr (s : String) : String :=
  "\"" ++ jsonEscape s ++ "\""

/-- JSON rendering of an object whose field values are already rendered,
with `indent=2` style: two extra spaces per nesting level, key order equal
to insertion order (`json.dump` default). -/
def renderObj (ind : Nat) (fields : List (String × String)) : String :=
  match fields with
  | [] => "\x7b\x7d"
  | _ :: _ =>
    "\x7b\n" ++
      String.intercalate ",\n"
        (fields.map (fun p => spaces (ind + 2) ++ renderStr p.1 ++ ": " ++ p.2)) ++
      "\n" ++ spaces ind ++ "\x7d"

/-- JSON rendering of an array whose elements are already rendered. -/
def renderArr (ind : Nat) (elems : List String) : String :=
  match elems with
  | [] => "[]"
  | _ :: _ =>
    "[\n" ++
      String.intercalate ",\n" (elems.map (fun e => spaces (ind + 2) ++ e)) ++
      "\n" ++ spaces ind ++ "]"

/-- JSON rendering of a dictionary of strings (a `variables` mapping). -/
def renderStrDict (ind : Nat) (d : List (String × String)) : String :=
  renderObj ind (d.map (fun p => (p.1, renderStr p.2)))

/-- JSON rendering of a dependency list. -/
def renderDeps (ind : Nat) (l : List String) : String :=
  renderArr ind (l.map renderStr)

/-- JSON rendering of a `FunctionInfo` dictionary, field order as built. -/
def renderFunctionInfo (ind : Nat) (fi : FunctionInfo) : String :=
  renderObj ind
    [("name", renderStr fi.name),
     ("variables", renderStrDict (ind + 2) fi.«variables»),
     ("dependencies", renderDeps (ind + 2) fi.dependencies),
     ("line_number", toString fi.line_number)]

/-- JSON rendering of a `ClassInfo` dictionary, field order as built. -/
def renderClassInfo (ind : Nat) (ci : ClassInfo) : String :=
  renderObj ind
    [("name", renderStr ci.name),
     ("methods",
      renderObj (ind + 2)
        (ci.methods.map (fun p => (p.1, renderFunctionInfo (ind + 4) p.2)))),
     ("variables", renderStrDict (ind + 2) ci.«variables»),
     ("dependencies", renderDeps (ind + 2) ci.dependencies),
     ("line_number", toString ci.line_number)]

/-- JSON rendering of a `FileStructure` dictionary, field order as built. -/
def renderFileStructure (ind : Nat) (fs : FileStructure) : String :=
  renderObj ind
    [("functions",
      renderObj (ind + 2)
        (fs.functions.map (fun p => (p.1, renderFunctionInfo (ind + 4) p.2)))),
     ("classes",
      renderObj (ind + 2)
        (fs.classes.map (fun p => (p.1, renderClassInfo (ind + 4) p.2)))),
     ("dependencies", renderDeps (ind + 2) fs.dependencies)]

/-- Model of `PythonProjectParser.save_to_json`: the byte content written to
the output file, `json.dump(self.project_structure, f, indent=2)`. -/
def save_to_json (ps : ProjectStructure) : String :=
  renderObj 0
    (ps.map (fun p =>
      (p.1,
       renderObj 2 (p.2.map (fun q => (q.1, renderFileStructure 4 q.2))))))

/-- Model of `main`: construct a parser (fresh, empty structure), run
`parse_project`, and only then `save_to_json`. The `.ok` value is the byte
content written to the output file; a propagated exception (`.error`) means
serialization is never invoked and no output file is written. -/
def main (t : DirTree) : Except String String :=
  match parse_project t [] with
  | .ok ps => .ok (save_to_json ps)
  | .error e => .error e

/-! Derived definitions used by the verification layer below. -/

/-- Contribution of a single direct child to the dependency list. -/
def depOf : Stmt → List String
  | .importStmt names => names.map (fun a => a.name)
  | .importFrom module names =>
      names.map (fun a => (module.getD "") ++ "." ++ a.name)
  | _ => []

/-- Statement test: is this child an import node of either kind? -/
def isImportStmt : Stmt → Bool
  | .importStmt _ => true
  | .importFrom _ _ => true
  | _ => false

/-- Combined lookup `project_structure[m][f]`, as a partial map. -/
def lookup2 (ps : ProjectStructure) (m f : String) : Option FileStructure :=
  match lookupA ps m with
  | some inner => lookupA inner f
  | none => none

/-- Well-formedness of the nested structure: no duplicate keys at either
level. It holds for the empty structure and is preserved by `insertFile`. -/
def WFps (ps : ProjectStructure) : Prop :=
  (keysOf ps).Nodup ∧ ∀ p ∈ ps, (keysOf p.2).Nodup

/-- Shape equality of two structures: same module keys in the same order,
and per module the same file keys in the same order. -/
def ShapeEq (ps q : ProjectStructure) : Prop :=
  keysOf ps = keysOf q ∧
    ∀ m, (lookupA ps m).map keysOf = (lookupA q m).map keysOf

/-- Contribution of a single walk entry to the key `(m, f)`: the body of the
entry when it is eligible, matches the key and is valid. -/
def entryIns (e : String × String × FileText) (m f : String) :
    Option (List Stmt) :=
  if is_python_file e.2.1 = true ∧ e.1 = m ∧ e.2.1 = f then
    match e.2.2 with
    | .valid b => some b
    | .invalid => none
  else none

/-- Last eligible, syntactically valid occurrence of the key `(m, f)` in the
entry list: the body whose parse wins under last-wins insertion. -/
def lastIns : List (String × String × FileText) → String → String →
    Option (List Stmt)
  | [], _, _ => none
  | e :: rest, m, f =>
    match lastIns rest m f with
    | some b => some b
    | none => entryIns e m f

/-- Navigation to the directory at a relative component path. -/
def dirAt : DirTree → List String → Option DirTree
  | t, [] => some t
  | t, c :: cs =>
    match t with
    | .node _ subs =>
      match lookupA subs c with
      | some sub => dirAt sub cs
      | none => none

/-- Directory tree consisting of one chain of nested directories with the
given files at the bottom. -/
def spineTree : List String → List (String × FileText) → DirTree
  | [], files => .node files []
  | c :: cs, files => .node [] [(c, spineTree cs files)]

/-! Basic lemmas about the dependency extractor. -/


theorem edep_foldl (l : List Stmt) (acc : List String) :
    l.foldl
      (fun deps child =>
        match child with
        | .importStmt names => deps ++ names.map (fun a => a.name)
        | .importFrom module names =>
            deps ++ names.map (fun a => (module.getD "") ++ "." ++ a.name)
        | _ => deps)
      acc = acc ++ l.flatMap depOf := by
  induction l generalizing acc with
  | nil => simp
  | cons x xs ih =>
    cases x <;> simp [ih, depOf, List.append_assoc]

theorem edep_eq_flatMap (l : List Stmt) :
    extract_dependencies l = l.flatMap depOf := by
  simpa using edep_foldl l []

theorem edep_append (xs ys : List Stmt) :
    extract_dependencies (xs ++ ys) =
      extract_dependencies xs ++ extract_dependencies ys := by
  simp [edep_eq_flatMap]


theorem depOf_eq_nil_of_not_import (s : Stmt) (h : isImportStmt s = false) :
    depOf s = [] := by
  cases s <;> simp_all [isImportStmt, depOf]

theorem edep_eq_nil_of_no_imports (l : List Stmt)
    (h : ∀ s ∈ l, isImportStmt s = false) :
    extract_dependencies l = [] := by
  rw [edep_eq_flatMap]
  induction l with
  | nil => rfl
  | cons x xs ih =>
    simp only [List.flatMap_cons]
    rw [depOf_eq_nil_of_not_import x (h x (by simp)),
      ih (fun s hs => h s (by simp [hs]))]
    rfl

/-! Projection lemmas: each field of the built dictionaries is the fold of
its own update over the child list. -/

theorem mkFileStructure_dependencies_foldl (l : List Stmt)
    (init : FileStructure) :
    (l.foldl
      (fun fs node =>
        match node with
        | .funcDef n ln b =>
            { fs with functions := alSet fs.functions n (parse_function n ln b) }
        | .classDef n ln b =>
            { fs with classes := alSet fs.classes n (parse_class n ln b) }
        | _ => fs)
      init).dependencies = init.dependencies := by
  induction l generalizing init with
  | nil => rfl
  | cons x xs ih => cases x <;> simp [ih]

theorem mkFileStructure_dependencies (body : List Stmt) :
    (mkFileStructure body).dependencies = extract_dependencies body :=
  mkFileStructure_dependencies_foldl body _

theorem mkFileStructure_functions_foldl (l : List Stmt)
    (init : FileStructure) :
    (l.foldl
      (fun fs node =>
        match node with
        | .funcDef n ln b =>
            { fs with functions := alSet fs.functions n (parse_function n ln b) }
        | .classDef n ln b =>
            { fs with classes := alSet fs.classes n (parse_class n ln b) }
        | _ => fs)
      init).functions =
      l.foldl
        (fun d node =>
          match node with
          | .funcDef n ln b => alSet d n (parse_function n ln b)
          | _ => d)
        init.functions := by
  induction l generalizing init with
  | nil => rfl
  | cons x xs ih => cases x <;> simp [ih]

theorem mkFileStructure_functions (body : List Stmt) :
    (mkFileStructure body).functions =
      body.foldl
        (fun d node =>
          match node with
          | .funcDef n ln b => alSet d n (parse_function n ln b)
          | _ => d)
        [] :=
  mkFileStructure_functions_foldl body _

theorem parse_class_pair_fst (l : List Stmt)
    (acc : List (String × FunctionInfo) × List (String × String)) :
    (l.foldl
      (fun acc child =>
        match child with
        | .funcDef n ln b => (alSet acc.1 n (parse_function n ln b), acc.2)
        | .assign targets value =>
            (acc.1,
             targets.foldl
               (fun cv t =>
                 match t with
                 | .name id => alSet cv id (pyStrip value)
                 | .other => cv)
               acc.2)
        | _ => acc)
      acc).1 =
      l.foldl
        (fun d child =>
          match child with
          | .funcDef n ln b => alSet d n (parse_function n ln b)
          | _ => d)
        acc.1 := by
  induction l generalizing acc with
  | nil => rfl
  | cons x xs ih => cases x <;> simp [ih]

theorem parse_class_methods (cn : String) (cl : Nat) (body : List Stmt) :
    (parse_class cn cl body).methods =
      body.foldl
        (fun d child =>
          match child with
          | .funcDef n ln b => alSet d n (parse_function n ln b)
          | _ => d)
        [] := by
  show (body.foldl _ (([], []) :
    List (String × FunctionInfo) × List (String × String))).1 = _
  exact parse_class_pair_fst body _

theorem parse_class_pair_snd (l : List Stmt)
    (acc : List (String × FunctionInfo) × List (String × String)) :
    (l.foldl
      (fun acc child =>
        match child with
        | .funcDef n ln b => (alSet acc.1 n (parse_function n ln b), acc.2)
        | .assign targets value =>
            (acc.1,
             targets.foldl
               (fun cv t =>
                 match t with
                 | .name id => alSet cv id (pyStrip value)
                 | .other => cv)
               acc.2)
        | _ => acc)
      acc).2 =
      l.foldl
        (fun cv child =>
          match child with
          | .assign targets value =>
              targets.foldl
                (fun cv t =>
                  match t with
                  | .name id => alSet cv id (pyStrip value)
                  | .other => cv)
                cv
          | _ => cv)
        acc.2 := by
  induction l generalizing acc with
  | nil => rfl
  | cons x xs ih => cases x <;> simp [ih]

theorem parse_class_variables (cn : String) (cl : Nat) (body : List Stmt) :
    (parse_class cn cl body).«variables» =
      body.foldl
        (fun cv child =>
          match child with
          | .assign targets value =>
              targets.foldl
                (fun cv t =>
                  match t with
                  | .name id => alSet cv id (pyStrip value)
                  | .other => cv)
                cv
          | _ => cv)
        [] := by
  show (body.foldl _ (([], []) :
    List (String × FunctionInfo) × List (String × String))).2 = _
  exact parse_class_pair_snd body _

/-- C4: an import written inside a nested function (or nested class) child
contributes nothing to the dependency list of the enclosing node, whatever
the nested body contains: the extractor scans direct children only, so a
nested definition child is equivalent to its absence, both for
`_extract_dependencies` itself and for the `dependencies` field that
`_parse_function` attaches to the outer function. -/
theorem C4_nested_imports_invisible (pre post inner : List Stmt)
    (n fn : String) (l ln : Nat) :
    extract_dependencies (pre ++ Stmt.funcDef n l inner :: post) =
        extract_dependencies (pre ++ post) ∧
      extract_dependencies (pre ++ Stmt.classDef n l inner :: post) =
        extract_dependencies (pre ++ post) ∧
      (parse_function fn ln (pre ++ Stmt.funcDef n l inner :: post)).dependencies =
        extract_dependencies (pre ++ post) := by
  refine ⟨?_, ?_, ?_⟩ <;>
    simp [parse_function, edep_eq_flatMap, depOf]

/-- C5: for a file whose top level is `import a.b` followed by
`from c import d` (with any other, non-import statements around them),
`parse_file` succeeds and returns file-level dependencies
`["a.b", "c.d"]`: plain-import names verbatim, from-import names joined as
module.name, in encounter order. -/
theorem C5_file_level_dependency_order (pre mid post : List Stmt)
    (hpre : ∀ s ∈ pre, isImportStmt s = false)
    (hmid : ∀ s ∈ mid, isImportStmt s = false)
    (hpost : ∀ s ∈ post, isImportStmt s = false) :
    Except.map (fun fs => fs.dependencies)
        (parse_file (FileText.valid
          (pre ++ [Stmt.importStmt [⟨"a.b", none⟩]] ++ mid ++
            [Stmt.importFrom (some "c") [⟨"d", none⟩]] ++ post))) =
      Except.ok ["a.b", "c.d"] := by
  have hp : pre.flatMap depOf = [] := by
    rw [← edep_eq_flatMap]; exact edep_eq_nil_of_no_imports pre hpre
  have hm : mid.flatMap depOf = [] := by
    rw [← edep_eq_flatMap]; exact edep_eq_nil_of_no_imports mid hmid
  have hq : post.flatMap depOf = [] := by
    rw [← edep_eq_flatMap]; exact edep_eq_nil_of_no_imports post hpost
  have hfs :
      extract_dependencies
          (pre ++ [Stmt.importStmt [⟨"a.b", none⟩]] ++ mid ++
            [Stmt.importFrom (some "c") [⟨"d", none⟩]] ++ post) =
        ["a.b", "c.d"] := by
    rw [edep_eq_flatMap]
    simp only [List.flatMap_append, hp, hm, hq, List.flatMap_cons,
      List.flatMap_nil, List.nil_append, List.append_nil]
    rfl
  have hdeps : (mkFileStructure
      (pre ++ [Stmt.importStmt [⟨"a.b", none⟩]] ++ mid ++
        [Stmt.importFrom (some "c") [⟨"d", none⟩]] ++ post)).dependencies =
      ["a.b", "c.d"] := by
    rw [mkFileStructure_dependencies]
    exact hfs
  simp only [parse_file, Except.map]
  exact congrArg Except.ok hdeps

/-- C5 witness: the two-import file itself. -/
theorem C5_file_level_dependency_order_witness :
    Except.map (fun fs => fs.dependencies)
        (parse_file (FileText.valid
          ([] ++ [Stmt.importStmt [⟨"a.b", none⟩]] ++ [] ++
            [Stmt.importFrom (some "c") [⟨"d", none⟩]] ++ []))) =
      Except.ok ["a.b", "c.d"] :=
  C5_file_level_dependency_order [] [] [] (by simp) (by simp) (by simp)

/-- C6: a from-import that names no module (`module = none`, as in a
relative import `from . import x`) uses the empty string as the module
segment, so each appended entry is the separator joined with the imported
name. -/
theorem C6_empty_module_segment (pre post : List Stmt)
    (names : List ImportAlias) :
    extract_dependencies (pre ++ Stmt.importFrom none names :: post) =
      extract_dependencies pre ++ names.map (fun a => "." ++ a.name) ++
        extract_dependencies post := by
  simp [edep_eq_flatMap, depOf]

/-! Generic dictionary lemmas. -/

theorem lookupA_nil {α : Type} (k : String) : lookupA ([] : List (String × α)) k = none := rfl

theorem lookupA_cons {α : Type} (p : String × α) (d : List (String × α)) (k : String) :
    lookupA (p :: d) k = if p.1 = k then some p.2 else lookupA d k := by
  by_cases h : p.1 = k
  · simp [lookupA, List.find?_cons_of_pos, h]
  · rw [if_neg h]
    unfold lookupA
    rw [List.find?_cons_of_neg]
    simp [h]

theorem lookupA_alSet {α : Type} (d : List (String × α)) (k k' : String) (v : α) :
    lookupA (alSet d k v) k' = if k' = k then some v else lookupA d k' := by
  induction d with
  | nil =>
    by_cases h : k' = k <;> simp [alSet, lookupA_cons, h, lookupA_nil]
    intro h'
    exact absurd h'.symm h
  | cons p rest ih =>
    by_cases hp : p.1 = k
    · rw [show alSet (p :: rest) k v = (k, v) :: rest by simp [alSet, hp]]
      by_cases h : k' = k
      · simp [lookupA_cons, h]
      · rw [lookupA_cons, lookupA_cons, if_neg (fun hh : k = k' => h hh.symm),
          if_neg (fun hh : p.1 = k' => h (hp ▸ hh).symm), if_neg h]
    · rw [show alSet (p :: rest) k v = p :: alSet rest k v by simp [alSet, hp]]
      rw [lookupA_cons, lookupA_cons, ih]
      by_cases hk : p.1 = k'
      · rw [if_pos hk, if_pos hk, if_neg (fun h : k' = k => hp (hk.symm ▸ h))]
      · rw [if_neg hk, if_neg hk]

theorem lookupA_alSet_isSome {α : Type} (d : List (String × α)) (k k' : String) (v : α) :
    (lookupA (alSet d k v) k').isSome ↔ k' = k ∨ (lookupA d k').isSome := by
  rw [lookupA_alSet]
  by_cases h : k' = k <;> simp [h]

/-! C9: async function definitions are never recorded. -/

theorem foldl_skip {α β : Type} (step : α → β → α) (x : β)
    (hx : ∀ a, step a x = a) (pre post : List β) (init : α) :
    (pre ++ x :: post).foldl step init = (pre ++ post).foldl step init := by
  simp [List.foldl_append, hx]

/-- C9: an `async def` is an `ast.AsyncFunctionDef` node, which is not an
instance of `ast.FunctionDef`, so a top-level `async def` leaves the file's
`functions` mapping exactly as if it were absent, and an `async def` in a
class body leaves the class's `methods` mapping exactly as if it were
absent. -/
theorem C9_async_defs_never_recorded (pre post b : List Stmt)
    (n cn : String) (l cl : Nat) :
    (mkFileStructure (pre ++ Stmt.asyncFuncDef n l b :: post)).functions =
        (mkFileStructure (pre ++ post)).functions ∧
      (parse_class cn cl (pre ++ Stmt.asyncFuncDef n l b :: post)).methods =
        (parse_class cn cl (pre ++ post)).methods := by
  constructor
  · rw [mkFileStructure_functions, mkFileStructure_functions]
    exact foldl_skip _ _ (fun a => rfl) pre post []
  · rw [parse_class_methods, parse_class_methods]
    exact foldl_skip _ _ (fun a => rfl) pre post []

/-- C10: annotated assignments (`ast.AnnAssign`) and augmented assignments
(`ast.AugAssign`) are not `ast.Assign` nodes, so they contribute nothing to
the `variables` mapping of a function or of a class: inserting either kind
of statement leaves the mapping exactly as if it were absent. -/
theorem C10_ann_aug_assign_never_captured (pre post : List Stmt)
    (t1 t2 : Target) (v1 : Option String) (v2 : String)
    (n cn : String) (l cl : Nat) :
    (parse_function n l (pre ++ Stmt.annAssign t1 v1 :: post)).«variables» =
        (parse_function n l (pre ++ post)).«variables» ∧
      (parse_function n l (pre ++ Stmt.augAssign t2 v2 :: post)).«variables» =
        (parse_function n l (pre ++ post)).«variables» ∧
      (parse_class cn cl (pre ++ Stmt.annAssign t1 v1 :: post)).«variables» =
        (parse_class cn cl (pre ++ post)).«variables» ∧
      (parse_class cn cl (pre ++ Stmt.augAssign t2 v2 :: post)).«variables» =
        (parse_class cn cl (pre ++ post)).«variables» := by
  refine ⟨?_, ?_, ?_, ?_⟩
  · exact foldl_skip _ _ (fun a => rfl) pre post []
  · exact foldl_skip _ _ (fun a => rfl) pre post []
  · rw [parse_class_variables, parse_class_variables]
    exact foldl_skip _ _ (fun a => rfl) pre post []
  · rw [parse_class_variables, parse_class_variables]
    exact foldl_skip _ _ (fun a => rfl) pre post []

/-! C3: which assignments contribute entries to a function's variables. -/

theorem target_fold_isSome (targets : List Target)
    (init : List (String × String)) (value k : String) :
    (lookupA
        (targets.foldl
          (fun vars t =>
            match t with
            | .name id => alSet vars id (pyStrip value)
            | .other => vars)
          init) k).isSome ↔
      (lookupA init k).isSome ∨ Target.name k ∈ targets := by
  induction targets generalizing init with
  | nil => simp
  | cons t rest ih =>
    cases t with
    | name id =>
      rw [List.foldl_cons]
      simp only [ih, lookupA_alSet_isSome, List.mem_cons, Target.name.injEq]
      tauto
    | other =>
      rw [List.foldl_cons]
      simp only [ih, List.mem_cons]
      constructor
      · rintro (h | h)
        · exact Or.inl h
        · exact Or.inr (Or.inr h)
      · rintro (h | h | h)
        · exact Or.inl h
        · exact absurd h (by simp)
        · exact Or.inr h

theorem variables_fold_isSome (body : List Stmt)
    (init : List (String × String)) (k : String) :
    (lookupA
        (body.foldl
          (fun vars child =>
            match child with
            | .assign targets value =>
                targets.foldl
                  (fun vars t =>
                    match t with
                    | .name id => alSet vars id (pyStrip value)
                    | .other => vars)
                  vars
            | _ => vars)
          init) k).isSome ↔
      (lookupA init k).isSome ∨
        ∃ targets value, Stmt.assign targets value ∈ body ∧
          Target.name k ∈ targets := by
  induction body generalizing init with
  | nil => simp
  | cons s rest ih =>
    rw [List.foldl_cons]
    cases s with
    | assign targets value =>
      rw [ih, target_fold_isSome]
      constructor
      · rintro ((h | h) | ⟨ts, v, hmem, hk⟩)
        · exact Or.inl h
        · exact Or.inr ⟨targets, value, List.mem_cons_self _ _, h⟩
        · exact Or.inr ⟨ts, v, List.mem_cons_of_mem _ hmem, hk⟩
      · rintro (h | ⟨ts, v, hmem, hk⟩)
        · exact Or.inl (Or.inl h)
        · rcases List.mem_cons.mp hmem with heq | hmem'
          · cases heq
            exact Or.inl (Or.inr hk)
          · exact Or.inr ⟨ts, v, hmem', hk⟩
    | importStmt names =>
      rw [ih]
      simp only [List.mem_cons]
      constructor
      · rintro (h | ⟨ts, v, hmem, hk⟩)
        · exact Or.inl h
        · exact Or.inr ⟨ts, v, Or.inr hmem, hk⟩
      · rintro (h | ⟨ts, v, hmem | hmem, hk⟩)
        · exact Or.inl h
        · exact absurd hmem (by simp)
        · exact Or.inr ⟨ts, v, hmem, hk⟩
    | importFrom module names =>
      rw [ih]
      simp only [List.mem_cons]
      constructor
      · rintro (h | ⟨ts, v, hmem, hk⟩)
        · exact Or.inl h
        · exact Or.inr ⟨ts, v, Or.inr hmem, hk⟩
      · rintro (h | ⟨ts, v, hmem | hmem, hk⟩)
        · exact Or.inl h
        · exact absurd hmem (by simp)
        · exact Or.inr ⟨ts, v, hmem, hk⟩
    | annAssign t v =>
      rw [ih]
      simp only [List.mem_cons]
      constructor
      · rintro (h | ⟨ts, v', hmem, hk⟩)
        · exact Or.inl h
        · exact Or.inr ⟨ts, v', Or.inr hmem, hk⟩
      · rintro (h | ⟨ts, v', hmem | hmem, hk⟩)
        · exact Or.inl h
        · exact absurd hmem (by simp)
        · exact Or.inr ⟨ts, v', hmem, hk⟩
    | augAssign t v =>
      rw [ih]
      simp only [List.mem_cons]
      constructor
      · rintro (h | ⟨ts, v', hmem, hk⟩)
        · exact Or.inl h
        · exact Or.inr ⟨ts, v', Or.inr hmem, hk⟩
      · rintro (h | ⟨ts, v', hmem | hmem, hk⟩)
        · exact Or.inl h
        · exact absurd hmem (by simp)
        · exact Or.inr ⟨ts, v', hmem, hk⟩
    | funcDef n l b =>
      rw [ih]
      simp only [List.mem_cons]
      constructor
      · rintro (h | ⟨ts, v', hmem, hk⟩)
        · exact Or.inl h
        · exact Or.inr ⟨ts, v', Or.inr hmem, hk⟩
      · rintro (h | ⟨ts, v', hmem | hmem, hk⟩)
        · exact Or.inl h
        · exact absurd hmem (by simp)
        · exact Or.inr ⟨ts, v', hmem, hk⟩
    | asyncFuncDef n l b =>
      rw [ih]
      simp only [List.mem_cons]
      constructor
      · rintro (h | ⟨ts, v', hmem, hk⟩)
        · exact Or.inl h
        · exact Or.inr ⟨ts, v', Or.inr hmem, hk⟩
      · rintro (h | ⟨ts, v', hmem | hmem, hk⟩)
        · exact Or.inl h
        · exact absurd hmem (by simp)
        · exact Or.inr ⟨ts, v', hmem, hk⟩
    | classDef n l b =>
      rw [ih]
      simp only [List.mem_cons]
      constructor
      · rintro (h | ⟨ts, v', hmem, hk⟩)
        · exact Or.inl h
        · exact Or.inr ⟨ts, v', Or.inr hmem, hk⟩
      · rintro (h | ⟨ts, v', hmem | hmem, hk⟩)
        · exact Or.inl h
        · exact absurd hmem (by simp)
        · exact Or.inr ⟨ts, v', hmem, hk⟩
    | other =>
      rw [ih]
      simp only [List.mem_cons]
      constructor
      · rintro (h | ⟨ts, v', hmem, hk⟩)
        · exact Or.inl h
        · exact Or.inr ⟨ts, v', Or.inr hmem, hk⟩
      · rintro (h | ⟨ts, v', hmem | hmem, hk⟩)
        · exact Or.inl h
        · exact absurd hmem (by simp)
        · exact Or.inr ⟨ts, v', hmem, hk⟩

/-- C3 counterexample: the chained assignment `x = y = 1` is a single
`ast.Assign` with two bare-name targets; the claim says it contributes no
entry to `variables`, but the target loop records both names. -/
theorem C3_counterexample :
    (parse_function "f" 1
        [Stmt.assign [Target.name "x", Target.name "y"] "1"]).«variables» =
      [("x", "1"), ("y", "1")] ∧
    (parse_function "f" 1
        [Stmt.assign [Target.name "x", Target.name "y"] "1"]).«variables» ≠
      ([] : List (String × String)) := by
  exact ⟨by decide, by decide⟩

/-- C3 amended: `variables` has an entry for a name exactly when some plain
assignment (`ast.Assign`) among the function body's direct children has
that name as one of its bare-name targets — each name target of a chained
assignment is recorded individually, while attribute or tuple targets and
non-`Assign` statements contribute nothing. -/
theorem C3_amended_variable_capture (n : String) (l : Nat)
    (body : List Stmt) (k : String) :
    (lookupA (parse_function n l body).«variables» k).isSome ↔
      ∃ targets value, Stmt.assign targets value ∈ body ∧
        Target.name k ∈ targets := by
  have h := variables_fold_isSome body [] k
  simpa [parse_function, lookupA_nil] using h

/-! C1 and C2: a syntax error in any eligible file aborts the whole run. -/

theorem processEntries_error_of_invalid
    (es : List (String × String × FileText)) (ps : ProjectStructure)
    (m f : String) (hmem : (m, f, FileText.invalid) ∈ es)
    (hf : is_python_file f = true) :
    ∃ e, processEntries es ps = Except.error e := by
  induction es generalizing ps with
  | nil => cases hmem
  | cons entry rest ih =>
    obtain ⟨m', f', txt⟩ := entry
    rcases List.mem_cons.mp hmem with heq | hmem'
    · obtain ⟨hm, hf', htxt⟩ : m = m' ∧ f = f' ∧ FileText.invalid = txt := by
        simpa using heq
      subst hm
      subst hf'
      cases htxt
      exact ⟨"invalid syntax", by simp [processEntries, hf, parse_file]⟩
    · by_cases he : is_python_file f' = true
      · cases htxt : parse_file txt with
        | error e => exact ⟨e, by simp [processEntries, he, htxt]⟩
        | ok v =>
          obtain ⟨e, hrec⟩ := ih (insertFile ps m' f' v) hmem'
          exact ⟨e, by simp [processEntries, he, htxt, hrec]⟩
      · obtain ⟨e, hrec⟩ := ih ps hmem'
        exact ⟨e, by simp [processEntries, he, hrec]⟩

theorem processEntries_post_irrelevant
    (pre : List (String × String × FileText)) (m f : String)
    (post post' : List (String × String × FileText))
    (ps : ProjectStructure) (hf : is_python_file f = true) :
    processEntries (pre ++ (m, f, FileText.invalid) :: post) ps =
      processEntries (pre ++ (m, f, FileText.invalid) :: post') ps := by
  induction pre generalizing ps with
  | nil => simp [processEntries, hf, parse_file]
  | cons entry rest ih =>
    obtain ⟨m', f', txt⟩ := entry
    by_cases he : is_python_file f' = true
    · cases htxt : parse_file txt with
      | error e => simp [processEntries, he, htxt]
      | ok v => simp [processEntries, he, htxt, ih]
    · simp [processEntries, he, ih]

/-- C1: an eligible file whose text the grammar rejects makes the whole run
fail: `processEntries` (the file loop of `parse_project`) returns the
propagated error, its result does not depend on any entry after the failing
file, and `main` — which only calls `save_to_json` after `parse_project`
returns — yields no output bytes for any tree that walks to such a
sequence. -/
theorem C1_syntax_error_aborts_run
    (pre post post' : List (String × String × FileText))
    (m f : String) (ps : ProjectStructure)
    (hf : is_python_file f = true) :
    (∃ e, processEntries (pre ++ (m, f, FileText.invalid) :: post) ps =
        Except.error e) ∧
      processEntries (pre ++ (m, f, FileText.invalid) :: post) ps =
        processEntries (pre ++ (m, f, FileText.invalid) :: post') ps ∧
      ∀ t : DirTree, walkFiles t = pre ++ (m, f, FileText.invalid) :: post →
        ∃ e, main t = Except.error e := by
  refine ⟨processEntries_error_of_invalid _ _ m f (by simp) hf,
    processEntries_post_irrelevant pre m f post post' ps hf, ?_⟩
  intro t ht
  obtain ⟨e, he⟩ :=
    processEntries_error_of_invalid (walkFiles t) [] m f (by rw [ht]; simp) hf
  exact ⟨e, by simp [main, parse_project, he]⟩

/-- C1 witness: a root directory listing a good file, a syntactically
invalid file, then another good file. -/
theorem C1_syntax_error_aborts_run_witness :
    (∃ e, processEntries
        ([(".", "a.py", FileText.valid [])] ++
          (".", "bad.py", FileText.invalid) ::
            [(".", "z.py", FileText.valid [])]) [] = Except.error e) ∧
      processEntries
          ([(".", "a.py", FileText.valid [])] ++
            (".", "bad.py", FileText.invalid) ::
              [(".", "z.py", FileText.valid [])]) [] =
        processEntries
          ([(".", "a.py", FileText.valid [])] ++
            (".", "bad.py", FileText.invalid) :: []) [] ∧
      ∃ e, main (DirTree.node
          [("a.py", FileText.valid []), ("bad.py", FileText.invalid),
            ("z.py", FileText.valid [])] []) = Except.error e := by
  have h := C1_syntax_error_aborts_run
    [(".", "a.py", FileText.valid [])] [(".", "z.py", FileText.valid [])] []
    "." "bad.py" [] (by decide)
  exact ⟨h.1, h.2.1, h.2.2 _ (by rfl)⟩

/-- C2 counterexample: with a root directory listing an invalid file and
then a well-formed file, the run does not continue past the invalid file:
`parse_project` returns the propagated error and produces no project
structure for the remaining file, even though that file on its own parses
fine. -/
theorem C2_counterexample :
    parse_project
        (DirTree.node
          [("bad.py", FileText.invalid), ("good.py", FileText.valid [])] [])
        [] = Except.error "invalid syntax" ∧
      parse_file (FileText.valid []) = Except.ok (mkFileStructure []) :=
  ⟨rfl, rfl⟩

/-- C2 amended: a file whose text the source grammar cannot parse is a hard
failure for the entire run, not just for that file: whenever the walk
contains an eligible invalid file, `parse_project` returns an error and
yields no project structure at all for the remaining files. -/
theorem C2_amended_invalid_file_fails_run (t : DirTree)
    (ps : ProjectStructure) (m f : String)
    (hmem : (m, f, FileText.invalid) ∈ walkFiles t)
    (hf : is_python_file f = true) :
    ∃ e, parse_project t ps = Except.error e :=
  processEntries_error_of_invalid (walkFiles t) ps m f hmem hf

/-- C2 amended witness: the same two-file directory. -/
theorem C2_amended_invalid_file_fails_run_witness :
    ∃ e, parse_project
        (DirTree.node
          [("bad.py", FileText.invalid), ("good.py", FileText.valid [])] [])
        [] = Except.error e := by
  have hw : walkFiles
      (DirTree.node
        [("bad.py", FileText.invalid), ("good.py", FileText.valid [])] []) =
      [(".", "bad.py", FileText.invalid),
        (".", "good.py", FileText.valid [])] := rfl
  exact C2_amended_invalid_file_fails_run _ [] "." "bad.py"
    (by rw [hw]; exact List.mem_cons_self _ _) (by decide)

/-! Dictionary lemmas for the nested project structure. -/

theorem lookupA_eq_none {α : Type} (d : List (String × α)) (k : String) :
    lookupA d k = none ↔ k ∉ keysOf d := by
  induction d with
  | nil => simp [lookupA_nil, keysOf]
  | cons p rest ih =>
    rw [lookupA_cons]
    by_cases h : p.1 = k
    · rw [if_pos h]
      simp [keysOf, h]
    · rw [if_neg h]
      simp only [keysOf, List.map_cons, List.mem_cons]
      rw [ih]
      constructor
      · intro hh
        rintro (heq | hmem)
        · exact h heq.symm
        · exact hh hmem
      · intro hh hmem
        exact hh (Or.inr hmem)

theorem lookupA_isSome_iff_mem {α : Type} (d : List (String × α)) (k : String) :
    (lookupA d k).isSome ↔ k ∈ keysOf d := by
  rcases hl : lookupA d k with _ | v
  · simp [(lookupA_eq_none d k).mp hl]
  · simp
    by_contra hmem
    rw [(lookupA_eq_none d k).mpr hmem] at hl
    cases hl

theorem lookupA_mem {α : Type} (d : List (String × α)) (k : String) (v : α)
    (h : lookupA d k = some v) : (k, v) ∈ d := by
  induction d with
  | nil => cases h
  | cons p rest ih =>
    rw [lookupA_cons] at h
    by_cases hp : p.1 = k
    · rw [if_pos hp] at h
      have hv : p.2 = v := Option.some_inj.mp h
      have hpkv : p = (k, v) := by
        calc p = (p.1, p.2) := rfl
          _ = (k, v) := by rw [hp, hv]
      rw [← hpkv]
      exact List.mem_cons_self _ _
    · rw [if_neg hp] at h
      exact List.mem_cons_of_mem _ (ih h)

theorem keysOf_alSet {α : Type} (d : List (String × α)) (k : String) (v : α) :
    keysOf (alSet d k v) =
      if (lookupA d k).isSome then keysOf d else keysOf d ++ [k] := by
  induction d with
  | nil => simp [alSet, keysOf, lookupA_nil]
  | cons p rest ih =>
    by_cases hp : p.1 = k
    · rw [show alSet (p :: rest) k v = (k, v) :: rest by simp [alSet, hp],
        lookupA_cons, if_pos hp]
      simp [keysOf, hp]
    · rw [show alSet (p :: rest) k v = p :: alSet rest k v by simp [alSet, hp],
        lookupA_cons, if_neg hp]
      by_cases hs : (lookupA rest k).isSome
      · simp only [keysOf, List.map_cons] at ih ⊢
        rw [if_pos hs] at ih
        rw [if_pos hs, ih]
      · simp only [keysOf, List.map_cons] at ih ⊢
        rw [if_neg hs] at ih
        rw [if_neg hs, ih]
        rfl

theorem keysOf_alSet_nodup {α : Type} (d : List (String × α)) (k : String)
    (v : α) (h : (keysOf d).Nodup) : (keysOf (alSet d k v)).Nodup := by
  rw [keysOf_alSet]
  by_cases hs : (lookupA d k).isSome
  · rw [if_pos hs]; exact h
  · rw [if_neg hs]
    have hnm : k ∉ keysOf d := by
      rw [← lookupA_eq_none]
      cases hl : lookupA d k
      · rfl
      · rw [hl] at hs; simp at hs
    simp [List.nodup_append, h, hnm]

theorem mem_alSet_cases {α : Type} (d : List (String × α)) (k : String)
    (v : α) (x : String × α) (h : x ∈ alSet d k v) : x = (k, v) ∨ x ∈ d := by
  induction d with
  | nil => simpa [alSet] using h
  | cons p rest ih =>
    by_cases hp : p.1 = k
    · rw [show alSet (p :: rest) k v = (k, v) :: rest by simp [alSet, hp]] at h
      rcases List.mem_cons.mp h with h | h
      · exact Or.inl h
      · exact Or.inr (List.mem_cons_of_mem _ h)
    · rw [show alSet (p :: rest) k v = p :: alSet rest k v by
        simp [alSet, hp]] at h
      rcases List.mem_cons.mp h with h | h
      · exact Or.inr (h ▸ List.mem_cons_self _ _)
      · rcases ih h with h | h
        · exact Or.inl h
        · exact Or.inr (List.mem_cons_of_mem _ h)

theorem alExt {α : Type} (d d' : List (String × α))
    (hnd : (keysOf d).Nodup) (hk : keysOf d = keysOf d')
    (hl : ∀ k, lookupA d k = lookupA d' k) : d = d' := by
  induction d generalizing d' with
  | nil =>
    cases d' with
    | nil => rfl
    | cons p rest => simp [keysOf] at hk
  | cons p rest ih =>
    cases d' with
    | nil => simp [keysOf] at hk
    | cons p' rest' =>
      simp only [keysOf, List.map_cons, List.cons.injEq] at hk
      obtain ⟨hk1, hk2p⟩ := hk
      have hk2 : keysOf rest = keysOf rest' := hk2p
      have hp2 : p.2 = p'.2 := by
        have h1 := hl p.1
        rw [lookupA_cons, lookupA_cons, if_pos rfl, if_pos hk1.symm] at h1
        exact (Option.some.injEq .. ▸ h1)
      have hpp : p = p' := by
        calc p = (p.1, p.2) := rfl
          _ = (p'.1, p'.2) := by rw [hk1, hp2]
          _ = p' := rfl
      have hnd' : (keysOf rest).Nodup := (List.nodup_cons.mp hnd).2
      have hnm : p.1 ∉ keysOf rest := (List.nodup_cons.mp hnd).1
      have hrest : rest = rest' := by
        apply ih rest' hnd' hk2
        intro k
        by_cases hkp : k = p.1
        · subst hkp
          rw [(lookupA_eq_none rest p.1).mpr hnm,
            (lookupA_eq_none rest' p.1).mpr (hk2 ▸ hnm)]
        · have h1 := hl k
          rw [lookupA_cons, lookupA_cons, if_neg (fun h : p.1 = k => hkp h.symm),
            if_neg (fun h : p'.1 = k => hkp (hk1 ▸ h).symm)] at h1
          exact h1
      rw [hpp, hrest]

/-! Lemmas about `insertFile` on the nested project structure. -/


theorem insertFile_of_some (ps : ProjectStructure) (m f : String)
    (v : FileStructure) (inner : List (String × FileStructure))
    (h : lookupA ps m = some inner) :
    insertFile ps m f v = alSet ps m (alSet inner f v) := by
  simp [insertFile, h]

theorem insertFile_of_none (ps : ProjectStructure) (m f : String)
    (v : FileStructure) (h : lookupA ps m = none) :
    insertFile ps m f v = alSet (alSet ps m []) m [(f, v)] := by
  simp [insertFile, h, lookupA_alSet]
  rfl

theorem lookupA_insertFile_self (ps : ProjectStructure) (m f : String)
    (v : FileStructure) :
    lookupA (insertFile ps m f v) m =
      some (alSet ((lookupA ps m).getD []) f v) := by
  cases h : lookupA ps m with
  | some inner =>
    rw [insertFile_of_some ps m f v inner h, lookupA_alSet, if_pos rfl]
    rfl
  | none =>
    rw [insertFile_of_none ps m f v h, lookupA_alSet, if_pos rfl]
    rfl

theorem lookupA_insertFile_other (ps : ProjectStructure) (m m' f : String)
    (v : FileStructure) (hm : m' ≠ m) :
    lookupA (insertFile ps m f v) m' = lookupA ps m' := by
  cases h : lookupA ps m with
  | some inner =>
    rw [insertFile_of_some ps m f v inner h, lookupA_alSet, if_neg hm]
  | none =>
    rw [insertFile_of_none ps m f v h, lookupA_alSet, if_neg hm,
      lookupA_alSet, if_neg hm]

theorem lookup2_insertFile (ps : ProjectStructure) (m m' f f' : String)
    (v : FileStructure) :
    lookup2 (insertFile ps m f v) m' f' =
      if m' = m ∧ f' = f then some v else lookup2 ps m' f' := by
  by_cases hm : m' = m
  · subst hm
    rw [lookup2, lookupA_insertFile_self]
    show lookupA (alSet ((lookupA ps m').getD []) f v) f' = _
    rw [lookupA_alSet]
    by_cases hf : f' = f
    · rw [if_pos hf, if_pos ⟨rfl, hf⟩]
    · rw [if_neg hf, if_neg (fun h => hf h.2)]
      cases h : lookupA ps m' with
      | some inner => simp [lookup2, h]
      | none => simp [lookup2, h, lookupA_nil]
  · rw [lookup2, lookupA_insertFile_other ps m m' f v hm,
      if_neg (fun h => hm h.1)]
    rfl

theorem lookup2_isSome_insertFile (ps : ProjectStructure) (m m' f f' : String)
    (v : FileStructure) (h : (lookup2 ps m' f').isSome) :
    (lookup2 (insertFile ps m f v) m' f').isSome := by
  rw [lookup2_insertFile]
  by_cases hmf : m' = m ∧ f' = f
  · rw [if_pos hmf]; rfl
  · rw [if_neg hmf]; exact h


theorem WFps_nil : WFps [] := ⟨List.nodup_nil, fun p hp => absurd hp (by simp)⟩

theorem WFps_insertFile (ps : ProjectStructure) (m f : String)
    (v : FileStructure) (h : WFps ps) : WFps (insertFile ps m f v) := by
  obtain ⟨hk, hv⟩ := h
  cases hi : lookupA ps m with
  | some inner =>
    rw [insertFile_of_some ps m f v inner hi]
    refine ⟨keysOf_alSet_nodup _ _ _ hk, ?_⟩
    intro p hp
    rcases mem_alSet_cases _ _ _ _ hp with heq | hmem
    · subst heq
      exact keysOf_alSet_nodup _ _ _ (hv _ (lookupA_mem _ _ _ hi))
    · exact hv _ hmem
  | none =>
    rw [insertFile_of_none ps m f v hi]
    refine ⟨keysOf_alSet_nodup _ _ _ (keysOf_alSet_nodup _ _ _ hk), ?_⟩
    intro p hp
    rcases mem_alSet_cases _ _ _ _ hp with heq | hmem
    · subst heq
      exact List.nodup_singleton _
    · rcases mem_alSet_cases _ _ _ _ hmem with heq | hmem'
      · subst heq
        exact List.nodup_nil
      · exact hv _ hmem'


theorem ShapeEq.refl (ps : ProjectStructure) : ShapeEq ps ps :=
  ⟨rfl, fun _ => rfl⟩

theorem ShapeEq.trans {ps q r : ProjectStructure}
    (h1 : ShapeEq ps q) (h2 : ShapeEq q r) : ShapeEq ps r :=
  ⟨h1.1.trans h2.1, fun m => (h1.2 m).trans (h2.2 m)⟩

theorem ShapeEq_insertFile_of_present (ps : ProjectStructure) (m f : String)
    (v : FileStructure) (h : (lookup2 ps m f).isSome) :
    ShapeEq (insertFile ps m f v) ps := by
  cases hi : lookupA ps m with
  | none => rw [lookup2, hi] at h; cases h
  | some inner =>
    rw [lookup2, hi] at h
    rw [insertFile_of_some ps m f v inner hi]
    constructor
    · rw [keysOf_alSet, if_pos (by rw [hi]; rfl)]
    · intro m'
      by_cases hm : m' = m
      · subst hm
        rw [lookupA_alSet, if_pos rfl, hi]
        show some (keysOf (alSet inner f v)) = some (keysOf inner)
        rw [keysOf_alSet, if_pos h]
      · rw [lookupA_alSet, if_neg hm]

theorem ext2 (ps q : ProjectStructure) (hwf : WFps ps) (hs : ShapeEq ps q)
    (hl : ∀ m f, lookup2 ps m f = lookup2 q m f) : ps = q := by
  apply alExt ps q hwf.1 hs.1
  intro m
  cases hpm : lookupA ps m with
  | none =>
    cases hqm : lookupA q m with
    | none => rfl
    | some innerq =>
      have := hs.2 m
      rw [hpm, hqm] at this
      cases this
  | some innerp =>
    cases hqm : lookupA q m with
    | none =>
      have := hs.2 m
      rw [hpm, hqm] at this
      cases this
    | some innerq =>
      have hkeys : keysOf innerp = keysOf innerq := by
        have := hs.2 m
        rw [hpm, hqm] at this
        simpa using this
      have hinner : innerp = innerq := by
        apply alExt innerp innerq (hwf.2 _ (lookupA_mem _ _ _ hpm)) hkeys
        intro f
        have := hl m f
        rw [lookup2, lookup2, hpm, hqm] at this
        exact this
      rw [hinner]

/-! Lemmas about the file-processing loop. -/

theorem processEntries_no_invalid
    (es : List (String × String × FileText)) (ps q : ProjectStructure)
    (hok : processEntries es ps = Except.ok q)
    (m f : String) (hmem : (m, f, FileText.invalid) ∈ es)
    (hf : is_python_file f = true) : False := by
  obtain ⟨e, he⟩ := processEntries_error_of_invalid es ps m f hmem hf
  rw [hok] at he
  cases he

theorem processEntries_mono
    (es : List (String × String × FileText)) (ps q : ProjectStructure)
    (m f : String) (hok : processEntries es ps = Except.ok q)
    (h : (lookup2 ps m f).isSome) : (lookup2 q m f).isSome := by
  induction es generalizing ps with
  | nil =>
    obtain rfl : ps = q := by simpa [processEntries] using hok
    exact h
  | cons entry rest ih =>
    obtain ⟨m', f', txt⟩ := entry
    by_cases he : is_python_file f' = true
    · cases txt with
      | invalid => simp [processEntries, he, parse_file] at hok
      | valid b =>
        simp only [processEntries, he, if_true, parse_file] at hok
        exact ih _ hok (lookup2_isSome_insertFile ps m' m f' f _ h)
    · simp only [processEntries, he, if_false, Bool.not_eq_true] at hok
      rw [if_neg (by simp [he])] at hok
      exact ih _ hok h

theorem processEntries_present
    (es : List (String × String × FileText)) (ps q : ProjectStructure)
    (m f : String) (txt : FileText)
    (hok : processEntries es ps = Except.ok q)
    (hmem : (m, f, txt) ∈ es) (hf : is_python_file f = true) :
    (lookup2 q m f).isSome := by
  induction es generalizing ps with
  | nil => cases hmem
  | cons entry rest ih =>
    obtain ⟨m', f', txt'⟩ := entry
    rcases List.mem_cons.mp hmem with heq | hmem'
    · obtain ⟨h1, h2, h3⟩ : m = m' ∧ f = f' ∧ txt = txt' := by simpa using heq
      subst h1
      subst h2
      subst h3
      cases txt with
      | invalid => simp [processEntries, hf, parse_file] at hok
      | valid b =>
        simp only [processEntries, hf, if_true, parse_file] at hok
        apply processEntries_mono rest _ q m f hok
        have hkey : m = m ∧ f = f := ⟨rfl, rfl⟩
        rw [lookup2_insertFile, if_pos hkey]
        rfl
    · by_cases he : is_python_file f' = true
      · cases txt' with
        | invalid => simp [processEntries, he, parse_file] at hok
        | valid b =>
          simp only [processEntries, he, if_true, parse_file] at hok
          exact ih _ hok hmem'
      · simp only [processEntries, he, if_false, Bool.not_eq_true] at hok
        rw [if_neg (by simp [he])] at hok
        exact ih _ hok hmem'



theorem lastIns_cons_skip (m' f' : String) (txt : FileText)
    (rest : List (String × String × FileText)) (m f : String)
    (h : ¬(is_python_file f' = true ∧ m' = m ∧ f' = f)) :
    lastIns ((m', f', txt) :: rest) m f = lastIns rest m f := by
  rw [lastIns]
  cases lastIns rest m f with
  | some b => rfl
  | none =>
    show entryIns (m', f', txt) m f = none
    rw [entryIns, if_neg h]

theorem lastIns_cons_match (m' f' : String) (txt : FileText)
    (rest : List (String × String × FileText)) (m f : String)
    (hrest : lastIns rest m f = none)
    (h : is_python_file f' = true ∧ m' = m ∧ f' = f) :
    lastIns ((m', f', txt) :: rest) m f =
      match txt with
      | .valid b => some b
      | .invalid => none := by
  rw [lastIns, hrest]
  show entryIns (m', f', txt) m f = _
  rw [entryIns, if_pos h]

theorem lastIns_cons_covered (m' f' : String) (txt : FileText)
    (rest : List (String × String × FileText)) (m f : String)
    (b : List Stmt) (hrest : lastIns rest m f = some b) :
    lastIns ((m', f', txt) :: rest) m f = some b := by
  rw [lastIns, hrest]

theorem processEntries_lookup_lastIns
    (es : List (String × String × FileText)) (ps q : ProjectStructure)
    (hok : processEntries es ps = Except.ok q) (m f : String) :
    (∀ b, lastIns es m f = some b →
        lookup2 q m f = some (mkFileStructure b)) ∧
      (lastIns es m f = none → lookup2 q m f = lookup2 ps m f) := by
  induction es generalizing ps with
  | nil =>
    obtain rfl : ps = q := by simpa [processEntries] using hok
    constructor
    · intro b hb
      cases hb
    · intro _
      rfl
  | cons entry rest ih =>
    obtain ⟨m', f', txt⟩ := entry
    by_cases he : is_python_file f' = true
    · cases txt with
      | invalid => simp [processEntries, he, parse_file] at hok
      | valid b' =>
        simp only [processEntries, he, if_true, parse_file] at hok
        have IH := ih _ hok
        constructor
        · intro b hb
          cases hrest : lastIns rest m f with
          | some b0 =>
            rw [lastIns_cons_covered _ _ _ _ _ _ _ hrest] at hb
            obtain rfl : b0 = b := Option.some_inj.mp hb
            exact IH.1 _ hrest
          | none =>
            by_cases hcond : is_python_file f' = true ∧ m' = m ∧ f' = f
            · rw [lastIns_cons_match _ _ _ _ _ _ hrest hcond] at hb
              obtain rfl : b' = b := Option.some_inj.mp hb
              have hkey : m = m' ∧ f = f' :=
                ⟨hcond.2.1.symm, hcond.2.2.symm⟩
              rw [IH.2 hrest, lookup2_insertFile, if_pos hkey]
            · rw [lastIns_cons_skip _ _ _ _ _ _ hcond, hrest] at hb
              cases hb
        · intro hnone
          cases hrest : lastIns rest m f with
          | some b0 =>
            rw [lastIns_cons_covered _ _ _ _ _ _ _ hrest] at hnone
            cases hnone
          | none =>
            by_cases hcond : is_python_file f' = true ∧ m' = m ∧ f' = f
            · rw [lastIns_cons_match _ _ _ _ _ _ hrest hcond] at hnone
              cases hnone
            · have hkey : ¬(m = m' ∧ f = f') := by
                intro hmf
                exact hcond ⟨he, hmf.1.symm, hmf.2.symm⟩
              rw [IH.2 hrest, lookup2_insertFile, if_neg hkey]
    · simp only [processEntries, he, if_false, Bool.not_eq_true] at hok
      rw [if_neg (by simp [he])] at hok
      have IH := ih _ hok
      rw [lastIns_cons_skip _ _ _ _ _ _ (fun h => he h.1)]
      exact IH

theorem processEntries_WF
    (es : List (String × String × FileText)) (ps q : ProjectStructure)
    (hok : processEntries es ps = Except.ok q) (hwf : WFps ps) : WFps q := by
  induction es generalizing ps with
  | nil =>
    obtain rfl : ps = q := by simpa [processEntries] using hok
    exact hwf
  | cons entry rest ih =>
    obtain ⟨m', f', txt⟩ := entry
    by_cases he : is_python_file f' = true
    · cases txt with
      | invalid => simp [processEntries, he, parse_file] at hok
      | valid b =>
        simp only [processEntries, he, if_true, parse_file] at hok
        exact ih _ hok (WFps_insertFile _ _ _ _ hwf)
    · simp only [processEntries, he, if_false, Bool.not_eq_true] at hok
      rw [if_neg (by simp [he])] at hok
      exact ih _ hok hwf

/-- Stability of a processing pass: if every eligible entry is valid, every
eligible entry's key is already present in `t`, and `q` agrees with `t`
except that each key covered by the entry list holds the parse of its last
occurrence, then re-processing the entries over `t` terminates in exactly
`q`. -/
theorem processEntries_stable
    (es : List (String × String × FileText)) (t q : ProjectStructure)
    (hwf : WFps t)
    (hvalid : ∀ m f, (m, f, FileText.invalid) ∈ es →
      is_python_file f = true → False)
    (hpres : ∀ m f txt, (m, f, txt) ∈ es → is_python_file f = true →
      (lookup2 t m f).isSome)
    (hshape : ShapeEq t q)
    (hc : ∀ m f,
      (match lastIns es m f with
       | some b => some (mkFileStructure b)
       | none => lookup2 t m f) = lookup2 q m f) :
    processEntries es t = Except.ok q := by
  induction es generalizing t with
  | nil =>
    have ht : t = q := by
      apply ext2 t q hwf hshape
      intro m f
      have := hc m f
      simpa [lastIns] using this
    rw [ht]
    rfl
  | cons entry rest ih =>
    obtain ⟨m', f', txt⟩ := entry
    by_cases he : is_python_file f' = true
    · cases txt with
      | invalid =>
        exact (hvalid m' f' (List.mem_cons_self _ _) he).elim
      | valid b' =>
        have hpres' : (lookup2 t m' f').isSome :=
          hpres m' f' _ (List.mem_cons_self _ _) he
        simp only [processEntries, he, if_true, parse_file]
        apply ih (insertFile t m' f' (mkFileStructure b'))
          (WFps_insertFile _ _ _ _ hwf)
          (fun m f hm hf => hvalid m f (List.mem_cons_of_mem _ hm) hf)
          (fun m f txt hm hf =>
            lookup2_isSome_insertFile t m' m f' f _
              (hpres m f txt (List.mem_cons_of_mem _ hm) hf))
          (ShapeEq.trans
            (ShapeEq_insertFile_of_present t m' f' _ hpres') hshape)
        intro m f
        cases hrest : lastIns rest m f with
        | some b =>
          have := hc m f
          rw [lastIns_cons_covered _ _ _ _ _ _ _ hrest] at this
          exact this
        | none =>
          by_cases hcond : is_python_file f' = true ∧ m' = m ∧ f' = f
          · have := hc m f
            rw [lastIns_cons_match _ _ _ _ _ _ hrest hcond] at this
            have hkey : m = m' ∧ f = f' :=
              ⟨hcond.2.1.symm, hcond.2.2.symm⟩
            show lookup2 (insertFile t m' f' (mkFileStructure b')) m f =
              lookup2 q m f
            rw [lookup2_insertFile, if_pos hkey]
            exact this
          · have hkey : ¬(m = m' ∧ f = f') := by
              intro hmf
              exact hcond ⟨he, hmf.1.symm, hmf.2.symm⟩
            have := hc m f
            rw [lastIns_cons_skip _ _ _ _ _ _ hcond, hrest] at this
            show lookup2 (insertFile t m' f' (mkFileStructure b')) m f =
              lookup2 q m f
            rw [lookup2_insertFile, if_neg hkey]
            exact this
    · simp only [processEntries, he, if_false, Bool.not_eq_true]
      rw [if_neg (by simp [he])]
      apply ih t hwf
        (fun m f hm hf => hvalid m f (List.mem_cons_of_mem _ hm) hf)
        (fun m f txt hm hf => hpres m f txt (List.mem_cons_of_mem _ hm) hf)
        hshape
      intro m f
      have := hc m f
      rw [lastIns_cons_skip _ _ _ _ _ _ (fun h => he h.1)] at this
      exact this

/-- C8: running `parse_project` twice over an unchanged directory tree — the
second call on the same parser instance, so it re-inserts into the structure
the first call produced — returns the same structure, and therefore
`save_to_json` serializes byte-identical output. -/
theorem C8_second_run_byte_identical (t : DirTree) :
    (parse_project t []).bind (fun ps => parse_project t ps) =
        parse_project t [] ∧
      ((parse_project t []).bind (fun ps => parse_project t ps)).map
          save_to_json =
        (parse_project t []).map save_to_json := by
  have hmain : (parse_project t []).bind (fun ps => parse_project t ps) =
      parse_project t [] := by
    cases hr : parse_project t [] with
    | error e => rfl
    | ok q =>
      show parse_project t q = Except.ok q
      apply processEntries_stable (walkFiles t) q q
        (processEntries_WF _ _ _ hr WFps_nil)
        (fun m f hm hf => processEntries_no_invalid _ _ _ hr m f hm hf)
        (fun m f txt hm hf => processEntries_present _ _ _ m f txt hr hm hf)
        (ShapeEq.refl q)
      intro m f
      cases hli : lastIns (walkFiles t) m f with
      | some b =>
        exact ((processEntries_lookup_lastIns _ _ _ hr m f).1 b hli).symm
      | none => rfl
  exact ⟨hmain, by rw [hmain]⟩

/-! C7: where a file is recorded in the project structure. -/



theorem dirAt_cons (files : List (String × FileText))
    (subs : List (String × DirTree)) (c : String) (cs : List String) :
    dirAt (DirTree.node files subs) (c :: cs) =
      match lookupA subs c with
      | some sub => dirAt sub cs
      | none => none := rfl

theorem walkSub_mem (pfx : List String) (subs : List (String × DirTree))
    (c : String) (sub : DirTree) (hc : lookupA subs c = some sub)
    (e : String × List (String × FileText))
    (he : e ∈ walkDirs (pfx ++ [c]) sub) : e ∈ walkSub pfx subs := by
  induction subs with
  | nil => cases hc
  | cons p rest ih =>
    rw [lookupA_cons] at hc
    by_cases hp : p.1 = c
    · rw [if_pos hp] at hc
      obtain rfl : p.2 = sub := Option.some_inj.mp hc
      rw [walkSub]
      apply List.mem_append_left
      rw [hp]
      exact he
    · rw [if_neg hp] at hc
      rw [walkSub]
      exact List.mem_append_right _ (ih hc)

theorem dirAt_walk_mem (comps : List String) (t d' : DirTree)
    (h : dirAt t comps = some d') (pfx : List String)
    (e : String × List (String × FileText))
    (he : e ∈ walkDirs (pfx ++ comps) d') : e ∈ walkDirs pfx t := by
  induction comps generalizing t pfx with
  | nil =>
    obtain rfl : t = d' := Option.some_inj.mp h
    simpa using he
  | cons c cs ih =>
    cases t with
    | node files subs =>
      rw [dirAt_cons] at h
      cases hsub : lookupA subs c with
      | none => rw [hsub] at h; cases h
      | some sub =>
        rw [hsub] at h
        have he' : e ∈ walkDirs ((pfx ++ [c]) ++ cs) d' := by
          rw [List.append_assoc]
          simpa using he
        have hmem := ih sub h (pfx ++ [c]) he'
        rw [walkDirs]
        exact List.mem_cons_of_mem _ (walkSub_mem pfx subs c sub hsub e hmem)

theorem walkFiles_mem (t : DirTree) (m : String)
    (files : List (String × FileText))
    (hmem : (m, files) ∈ walkDirs [] t) (f : String) (txt : FileText)
    (hf : (f, txt) ∈ files) : (m, f, txt) ∈ walkFiles t := by
  rw [walkFiles]
  rw [List.mem_flatMap]
  exact ⟨(m, files), hmem, List.mem_map.mpr ⟨(f, txt), hf, rfl⟩⟩

theorem walkFiles_spine_aux (cs : List String) (pfx : List String)
    (files : List (String × FileText)) :
    (walkDirs pfx (spineTree cs files)).flatMap
        (fun p => p.2.map (fun q => (p.1, q.1, q.2))) =
      files.map (fun q => (moduleName (pfx ++ cs), q.1, q.2)) := by
  induction cs generalizing pfx with
  | nil =>
    rw [spineTree, walkDirs, walkSub]
    simp
  | cons c cs ih =>
    rw [spineTree, walkDirs, walkSub, walkSub]
    simpa [List.append_assoc] using ih (pfx ++ [c])

theorem walkFiles_spine (comps : List String)
    (files : List (String × FileText)) :
    walkFiles (spineTree comps files) =
      files.map (fun q => (moduleName comps, q.1, q.2)) := by
  have h := walkFiles_spine_aux comps [] files
  simpa [walkFiles] using h

theorem insertFile_nil (m f : String) (v : FileStructure) :
    insertFile [] m f v = [(m, [(f, v)])] := by
  rw [insertFile_of_none _ _ _ _ (lookupA_nil m)]
  simp [alSet]

/-- C7: the outer key under which `parse_project` records a parsed file is
the dot-joined directory path relative to the project root (the root itself
is the module path "."), and the inner key is the bare file name. First
part: in any tree whose walk succeeds, a file sitting in the directory at
component path `comps` is recorded under module path `moduleName comps` and
its own name. Second part: for a chain of directories with a single
eligible valid file at the bottom, the resulting structure is exactly the
one entry at those keys. -/
theorem C7_module_path_mapping :
    (∀ (t : DirTree) (comps : List String)
        (files : List (String × FileText)) (subs : List (String × DirTree))
        (f : String) (txt : FileText) (ps : ProjectStructure),
      dirAt t comps = some (DirTree.node files subs) →
      (f, txt) ∈ files →
      is_python_file f = true →
      parse_project t [] = Except.ok ps →
      (lookup2 ps (moduleName comps) f).isSome) ∧
    (∀ (comps : List String) (f : String) (body : List Stmt),
      is_python_file f = true →
      parse_project (spineTree comps [(f, FileText.valid body)]) [] =
        Except.ok [(moduleName comps, [(f, mkFileStructure body)])]) := by
  constructor
  · intro t comps files subs f txt ps hdir hfile hf hok
    have hwd : (moduleName comps, files) ∈ walkDirs [] t := by
      apply dirAt_walk_mem comps t _ hdir []
      rw [List.nil_append, walkDirs]
      exact List.mem_cons_self _ _
    have hwf : (moduleName comps, f, txt) ∈ walkFiles t :=
      walkFiles_mem t _ files hwd f txt hfile
    exact processEntries_present (walkFiles t) [] ps _ f txt hok hwf hf
  · intro comps f body hf
    rw [parse_project, walkFiles_spine]
    simp only [List.map_cons, List.map_nil]
    simp [processEntries, hf, parse_file, insertFile_nil]

/-- C7 witness: a file at `<root>/pkg/sub/mod.py` is recorded under module
path "pkg.sub" and file name "mod.py"; a file directly in the root is
recorded under module path ".". -/
theorem C7_module_path_mapping_witness :
    (lookup2 [("pkg.sub", [("mod.py", mkFileStructure [])])]
        "pkg.sub" "mod.py").isSome ∧
      parse_project
          (spineTree ["pkg", "sub"] [("mod.py", FileText.valid [])]) [] =
        Except.ok [("pkg.sub", [("mod.py", mkFileStructure [])])] ∧
      parse_project (spineTree [] [("root.py", FileText.valid [])]) [] =
        Except.ok [(".", [("root.py", mkFileStructure [])])] := by
  have h2 := C7_module_path_mapping.2 ["pkg", "sub"] "mod.py" [] (by decide)
  have h0 := C7_module_path_mapping.2 [] "root.py" [] (by decide)
  refine ⟨?_, h2, h0⟩
  exact C7_module_path_mapping.1
    (spineTree ["pkg", "sub"] [("mod.py", FileText.valid [])])
    ["pkg", "sub"] [("mod.py", FileText.valid [])] []
    "mod.py" (FileText.valid [])
    [("pkg.sub", [("mod.py", mkFileStructure [])])]
    (by rfl) (List.mem_cons_self _ _) (by decide) h2

end AstProject

